import Mathlib

/-!
# Verification of the gshe image codec

Shallow embedding of the gshe library (grayscale homomorphic-encryption image
codec, Go).  Pixels are bytes, embedded as `Nat` with explicit `% 256`
wrap-around where the Go code performs byte arithmetic.  Fallible functions
return `Except String`.  The keystream RNG (`newRNG`, built from key and salt;
its construction lives outside the provided sources) is abstracted: theorems
quantify over the mask byte stream and over the bounded-draw function the
permutation consumes, which is faithful because the Go stream is a
deterministic function of `(key, salt)` and both encryption and decryption
derive the same stream from the same pair.

The file is laid out in two parts: all definitions (the embedding), then all
theorems.
-/

namespace Gshe

set_option maxRecDepth 40000

/-! ## Part 1: definitions -/

/-- Byte addition: Go `x + y` on `byte` operands. -/
def badd (x y : Nat) : Nat := (x + y) % 256

/-- Byte subtraction: Go `x - y` on `byte` operands (two's-complement wrap). -/
def bsub (x y : Nat) : Nat := (x + 256 - y % 256) % 256

/-- Go `absdiff(x, y byte) int`: `if x > y { int(x-y) } else { int(y-x) }`.
Under the guard the byte subtraction does not wrap, so on `Nat` this is
truncated subtraction in the corresponding branch. -/
def absdiff (x y : Nat) : Nat := if x > y then x - y else y - x

/-- Go `minmaxmedian(p [4]byte) (byte, byte, byte)`: the five-comparator
network from the source.  The Go parallel swaps
`b[0], b[1] = p[0], p[1]` (sorted), `b[2], b[3] = p[2], p[3]` (sorted), then
`b[0], b[2] = b[2], b[0]` if `b[0] > b[2]` and `b[1], b[3] = b[3], b[1]` if
`b[1] > b[3]`, are transcribed with one binding per written slot; the function
returns `(b[0], b[3], b[1])`. -/
def minmaxmedian (p : Nat × Nat × Nat × Nat) : Nat × Nat × Nat :=
  let b0 := if p.1 < p.2.1 then p.1 else p.2.1
  let b1 := if p.1 < p.2.1 then p.2.1 else p.1
  let b2 := if p.2.2.1 < p.2.2.2 then p.2.2.1 else p.2.2.2
  let b3 := if p.2.2.1 < p.2.2.2 then p.2.2.2 else p.2.2.1
  let c0 := if b0 > b2 then b2 else b0
  let c1 := if b1 > b3 then b3 else b1
  let c3 := if b1 > b3 then b1 else b3
  (c0, c3, c1)

/-- Go `cai(neighbors [4]byte, threshold int) byte`.  `p.1, p.2.1, p.2.2.1,
p.2.2.2` are `neighbors[0..3]` (N, E, S, W).  The sums are computed in `int`
(no wrap) and the final conversion back to `byte` is the `% 256`. -/
def cai (p : Nat × Nat × Nat × Nat) (threshold : Int) : Nat :=
  let m := minmaxmedian p
  if (m.2.1 : Int) - (m.1 : Int) ≤ threshold then
    (p.1 + p.2.1 + p.2.2.1 + p.2.2.2 + 2) / 4 % 256
  else if (absdiff p.2.1 p.2.2.2 : Int) - (absdiff p.1 p.2.2.1 : Int) > threshold then
    (p.1 + p.2.2.1 + 1) / 2 % 256
  else if (absdiff p.1 p.2.2.1 : Int) - (absdiff p.2.1 p.2.2.2 : Int) > threshold then
    (p.2.1 + p.2.2.2 + 1) / 2 % 256
  else
    m.2.2

/-! ### The keyed permutation

`permuteHalfimage` walks a shrinking suffix window (`p = p[2:]` per step),
swapping the two-byte block at the window head with the block at the drawn
offset.  `unpermuteBlocks` replays the same draws on an index array and
scatters.  Both are embedded over an abstract draw function
`f : Nat → Nat → Nat`, where `f i n` is the value of the `i`-th `rng.Intn(n)`
call; the real generator always satisfies `f i n < n`. -/

/-- Swap the head of a list with the element at position `n` (no-op for
`n = 0` or `n` out of range; the generator never draws out of range). -/
def swapHead {α : Type} : Nat → List α → List α
  | 0, l => l
  | _ + 1, [] => []
  | n + 1, x :: xs => xs.getD n x :: xs.set n x

/-- One suffix-window pass: at window `i` over a remaining list `x :: xs`
of length `m + 1`, swap position `0` with position `f i (length)`, keep the
new head and recurse on the tail.  The first argument is fuel, always called
with the length of the list. -/
def fyN {α : Type} (f : Nat → Nat → Nat) : Nat → Nat → List α → List α
  | _, _, [] => []
  | 0, _, _ :: _ => []
  | m + 1, i, x :: xs =>
    match swapHead (f i (xs.length + 1)) (x :: xs) with
    | [] => []
    | y :: ys => y :: fyN f m (i + 1) ys

/-- Go `permuteHalfimage(p []byte, rng *rand.Rand)`: the loop
`for ; len(p) > 0; p = p[2:]` draws `n := rng.Intn(len(p)/2) * 2` and swaps
`p[0], p[n]` and `p[1], p[n+1]` — the two-byte block at the window head with
the block at pair-offset `n/2`.  The half-image is embedded as the list of
its two-byte blocks (`p[2i], p[2i+1]`), polymorphically in the block type,
on which the loop is exactly the suffix recursion `fyN` with bound `len/2` =
the number of remaining blocks. -/
def permuteHalfimage {α : Type} (f : Nat → Nat → Nat) (p : List α) : List α :=
  fyN f p.length 0 p

/-- The scatter loop `for i, v := range indices { ret[v] = blocks[i] }`. -/
def scatter {α : Type} (indices : List Nat) (blocks : List α) (init : List α) :
    List α :=
  (indices.zip blocks).foldl (fun r q => r.set q.1 q.2) init

/-- Go `unpermuteBlocks(blocks [][4]byte, rng *rand.Rand)`: fills
`indices = [0, 1, ..., n-1]`, permutes it with the suffix-window loop
(`s = s[1:]` per step, swapping `s[0], s[n]` with `n := rng.Intn(len(s))`),
then allocates `ret` (`make`, zero value `d`) and scatters
`ret[indices[i]] = blocks[i]`.  Polymorphic in the block type: the Go code
never inspects the `[4]byte` values. -/
def unpermuteBlocks {α : Type} (f : Nat → Nat → Nat) (blocks : List α) (d : α) :
    List α :=
  let indices := fyN f blocks.length 0 (List.range blocks.length)
  scatter indices blocks (List.replicate blocks.length d)

/-- Swap the elements of `l` at positions `i` and `j` (Go
`l[i], l[j] = l[j], l[i]`); no-op when either index is out of range. -/
def swapIdx {α : Type} (l : List α) (i j : Nat) : List α :=
  match l[i]?, l[j]? with
  | some a, some b => (l.set i b).set j a
  | _, _ => l

/-- The three arrays Go `unpermuteBlocks` touches: the caller's `blocks`,
and the locally allocated `indices` and `ret`. -/
structure UnpermuteState (α : Type) where
  blocks : List α
  indices : List Nat
  ret : List α

/-- Go `unpermuteBlocks`, statement by statement, threading every array
through every loop iteration: `indices := make([]int, n)` (zeroed), filled by
`indices[i] = i`; the window loop `for s := indices; len(s) > 0; s = s[1:]`
swaps `indices[k] ↔ indices[k + rng.Intn(len(s))]` at window offset `k`
(`len(s) = n - k`); `ret := make([][4]byte, n)` (zero value `d`) receives
`ret[v] = blocks[i]` for `i, v := range indices`.  Assignments only ever
target the `indices` and `ret` components. -/
def unpermuteBlocksSt {α : Type} (f : Nat → Nat → Nat) (blocks : List α) (d : α) :
    UnpermuteState α :=
  let st0 : UnpermuteState α := ⟨blocks, List.replicate blocks.length 0, []⟩
  let st1 := (List.range st0.indices.length).foldl
    (fun st i => { st with indices := st.indices.set i i }) st0
  let st2 := (List.range st1.indices.length).foldl
    (fun st k => { st with indices := swapIdx st.indices k (k + f k (st.indices.length - k)) })
    st1
  let st3 := { st2 with ret := List.replicate blocks.length d }
  (st3.indices.zip st3.blocks).foldl (fun st q => { st with ret := st.ret.set q.1 q.2 }) st3

/-! ### The RNG shim and `math/rand` bounded draws -/

/-- Go `source.Int63()`: reads 8 keystream bytes and assembles
`int64(buf[0]&0x7f)<<56 | int64(buf[1])<<48 | ... | int64(buf[7])`.
`stream k` is the `k`-th keystream byte (bytes are `< 256`; the embedding
reduces `% 256` as the read buffer holds bytes). -/
def int63 (stream : Nat → Nat) (pos : Nat) : Nat :=
  (stream pos % 256 &&& 0x7f) <<< 56 |||
  (stream (pos + 1) % 256) <<< 48 |||
  (stream (pos + 2) % 256) <<< 40 |||
  (stream (pos + 3) % 256) <<< 32 |||
  (stream (pos + 4) % 256) <<< 24 |||
  (stream (pos + 5) % 256) <<< 16 |||
  (stream (pos + 6) % 256) <<< 8 |||
  (stream (pos + 7) % 256)

/-- Go `math/rand.(*Rand).Int31()` over the shim source:
`int32(r.Int63() >> 32)`. -/
def int31 (stream : Nat → Nat) (pos : Nat) : Nat := int63 stream pos >>> 32

/-- Go `math/rand.(*Rand).Int31n(n)` over the shim source (the body of
`Intn` for `0 < n < 2^31`): power-of-two `n` masks one `Int31`; otherwise
`Int31` values are drawn (8 keystream bytes each) until one is at most
`2^31 - 1 - 2^31 % n`, and the accepted value is reduced `% n`.  `fuel`
bounds the rejection loop (the Go loop is unbounded); the result is the
drawn value and the number of keystream bytes consumed. -/
def int31nFuel (stream : Nat → Nat) (n : Nat) : Nat → Nat → Option (Nat × Nat)
  | 0, _ => none
  | fuel + 1, pos =>
    if n &&& (n - 1) = 0 then some (int31 stream pos &&& (n - 1), 8)
    else
      let mx := 2 ^ 31 - 1 - 2 ^ 31 % n
      let v := int31 stream pos
      if v ≤ mx then some (v % n, 8)
      else
        match int31nFuel stream n fuel (pos + 8) with
        | some (w, c) => some (w, c + 8)
        | none => none

/-- The keystream byte sequence `0,0,0,0,0,0,0,1,0,...`: eight bytes whose
big-endian masked assembly is `1`. -/
def streamOne : Nat → Nat := fun k => if k = 7 then 1 else 0

/-- A keystream whose first eight bytes are `0xff` (a rejected 31-bit draw
for any non-power-of-two bound) followed by zero bytes. -/
def streamFF8 : Nat → Nat := fun k => if k < 8 then 255 else 0

/-! ### Images and the pipeline -/

/-- Go `Image`: a grayscale image, possibly padded to even dimensions. -/
structure Image where
  image : List Nat
  width : Nat
  height : Nat
  padWidth : Bool
  padHeight : Bool
deriving DecidableEq

/-- Go `(*Image).At(x, y)`: `img.Image[y*img.Width+x]`. -/
def Image.At (img : Image) (x y : Nat) : Nat := img.image.getD (y * img.width + x) 0

/-- Outcome of a Go call that can return an error value or crash. -/
inductive GoResult (α : Type) where
  | ok (val : α)
  | err (msg : String)
  | panicked
deriving DecidableEq

/-- Go `NewImage(data []byte, width, height int)`, transcribed with its
padding behaviour: `padded` is allocated by `make([]byte, 0, pw*ph)` — length
zero, only capacity — so the row copy `copy(padded[y*pw:], ...)` copies zero
bytes at `y = 0` (destination has length 0) and, for `y ≥ 1`, the slice
`padded[y*pw:]` has its low bound above the length and the call crashes.
The copy loop runs only when the width is odd; when only the height is odd
the empty `padded` is returned as the pixel array. -/
def NewImage (data : List Nat) (width height : Nat) : GoResult Image :=
  if data.length ≠ width * height then .err ("invalid image data")
  else if width % 2 = 0 ∧ height % 2 = 0 then
    .ok { image := data, width := width, height := height,
          padWidth := false, padHeight := false }
  else if width % 2 ≠ 0 ∧ height ≥ 2 then .panicked
  else
    .ok { image := [], width := width + width % 2, height := height + height % 2,
          padWidth := width % 2 ≠ 0, padHeight := height % 2 ≠ 0 }

/-- Go `EncryptedImage`.  The half-image is embedded as the list of its
two-byte blocks: pair `i` holds bytes `Halfimage[2i], Halfimage[2i+1]`. -/
structure EncryptedImage where
  halfimage : List (Nat × Nat)
  width : Nat
  height : Nat
  padWidth : Bool
  padHeight : Bool
  salt : List Nat
deriving DecidableEq

/-- Go `Encrypt(img *Image, key []byte)`.  `genSalt` and `newRNG` live outside
the provided sources; their keystream is a deterministic function of
`(key, salt)`, so it is abstracted: `mask k` is the `k`-th of the `W*H/4` mask
bytes `rng.Read` fills, and `f i n` the `i`-th bounded draw `rng.Intn(n)` that
the subsequent permutation consumes (decryption rebuilds the same stream from
the stored salt).  Block `(bx, by)` (source pixel `(2bx, 2by)`) is the byte
pair `Halfimage[by*W+2bx], Halfimage[by*W+2bx+1]` = masked top-left, masked
bottom-right; its pair index is `i = by*(W/2)+bx` and its mask byte
`mask[(y/2)*(W/2) + x/2] = mask i`.
NOTE: `padWidth := img.padHeight` in `Encrypt` transcribes the source
assignment `PadWidth: img.PadHeight`.

The masking loops of `Encrypt` (the construction of the half-image before
permutation) are `encryptHalfimage`. -/
def encryptHalfimage (img : Image) (mask : Nat → Nat) : List (Nat × Nat) :=
  let bw := img.width / 2
  let bh := img.height / 2
  (List.range (bw * bh)).map (fun i =>
    (badd (img.At (2 * (i % bw)) (2 * (i / bw))) (mask i),
     badd (img.At (2 * (i % bw) + 1) (2 * (i / bw) + 1)) (mask i)))

/-- Go `Encrypt`: mask (see `encryptHalfimage`), permute, copy metadata. -/
def Encrypt (img : Image) (mask : Nat → Nat) (f : Nat → Nat → Nat)
    (salt : List Nat) : EncryptedImage :=
  { halfimage := permuteHalfimage f (encryptHalfimage img mask)
    width := img.width
    height := img.height
    padWidth := img.padHeight
    padHeight := img.padHeight
    salt := salt }

/-- Go `compressedImage` (unexported): `CompressedImage` before entropy
coding. -/
structure compressedImage where
  quarterimage : List Nat
  qtable : List Nat
  qdiffs : List Nat
  salt : List Nat
  width : Nat
  height : Nat
  padWidth : Bool
  padHeight : Bool
deriving DecidableEq

/-- Go `CompressedImage`: the entropy-coded artifact. -/
structure CompressedImage where
  quarterimage : List Nat
  qtable : List Nat
  encQdiffs : List Nat
  salt : List Nat
  width : Nat
  height : Nat
  padWidth : Bool
  padHeight : Bool
deriving DecidableEq

/-- Helper for Go `bits.TrailingZeros8`: structural recursion on 8 fuel. -/
def trailingZeros8aux : Nat → Nat → Nat
  | 0, _ => 0
  | fuel + 1, q => if q % 2 = 1 then 0 else trailingZeros8aux fuel (q / 2) + 1

/-- Go `bits.TrailingZeros8(q)` for byte `q` (8 for zero input). -/
def trailingZeros8 (q : Nat) : Nat := if q = 0 then 8 else trailingZeros8aux 8 q

/-- Go `bits.OnesCount8(q)` for byte `q`. -/
def onesCount8 (q : Nat) : Nat :=
  ((List.range 8).filter (fun k => q / 2 ^ k % 2 = 1)).length

/-- Go `makeQtable(distortions []int, quantization uint8)`.
`qtable[k]` starts at `byte(k) << logq` and the inner loop over
`j = 1 .. quantization-1` replaces it by `(byte(k) << logq) + j` when
`distortions[j] < distortions[qtable[k]]` — the left index is `j` itself
(bucket 0's entries), exactly as in the source. -/
def makeQtable (distortions : List Nat) (quantization : Nat) : List Nat :=
  let logq := trailingZeros8 quantization
  (List.range (256 >>> logq)).map (fun k =>
    (List.range (quantization - 1)).foldl (fun cur jm1 =>
      if distortions.getD (jm1 + 1) 0 < distortions.getD cur 0
      then (k <<< logq) + (jm1 + 1) else cur)
      (k <<< logq))

/-- Go `compress(img *EncryptedImage, quantization uint8)` — the source
function of that name: the whole compression without the entropy coding.
The halfimage pair `(tl, br)` yields `diffs[i] = br - tl` (byte wrap).  In
the distortion accumulation, `(v - j) & maskq` is byte arithmetic and
`distortion * distortion` multiplies in `byte` (wraps mod 256) before the
`int` widening.  NOTE: `padWidth := img.padHeight` transcribes the source
assignment `PadWidth: img.PadHeight`. -/
def compress (img : EncryptedImage) (quantization : Nat) :
    Except String compressedImage :=
  let diffs := img.halfimage.map (fun p => bsub p.2 p.1)
  if onesCount8 quantization ≠ 1 then .error ("quantization must be power of 2")
  else
    let logq := trailingZeros8 quantization
    let maskq := quantization - 1
    let distortions := diffs.foldl (fun dist v =>
      let i := v >>> logq <<< logq
      (List.range quantization).foldl (fun dist j =>
        let distortion := (v + 256 - j) % 256 &&& maskq
        dist.set (i + j) (dist.getD (i + j) 0 + distortion * distortion % 256)) dist)
      (List.replicate 256 0)
    .ok { quarterimage := img.halfimage.map (fun p => p.1)
          qtable := makeQtable distortions quantization
          qdiffs := diffs.map (fun v => v >>> logq)
          salt := img.salt
          width := img.width
          height := img.height
          padWidth := img.padHeight
          padHeight := img.padHeight }

/-- Go `Compress(img *EncryptedImage, quantization uint8)`: `compress`
followed by the external FSE entropy coder, abstracted as `encode` (the
codec is a black box outside the sources). -/
def Compress (img : EncryptedImage) (quantization : Nat)
    (encode : List Nat → List Nat) : Except String CompressedImage :=
  match compress img quantization with
  | .error e => .error e
  | .ok comp =>
    .ok { quarterimage := comp.quarterimage
          qtable := comp.qtable
          encQdiffs := encode comp.qdiffs
          salt := img.salt
          width := comp.width
          height := comp.height
          padWidth := comp.padWidth
          padHeight := comp.padHeight }

/-- One 2x2 block of the decryptor, Go `[4]byte`: top-left, top-right,
bottom-left, bottom-right. -/
structure B4 where
  b0 : Nat
  b1 : Nat
  b2 : Nat
  b3 : Nat
deriving DecidableEq

/-- Go `interpolateBlocks(blocks [][4]byte, bw, bh, threshold int)`.  The
loop writes only components 1 and 2 and reads only components 0 and 3 (of
the current and neighbouring blocks), so the in-place update equals this
pointwise map over the original array. -/
def interpolateBlocks (blocks : List B4) (bw bh : Nat) (threshold : Int) :
    List B4 :=
  (List.range (bw * bh)).map (fun i =>
    let y := i / bw
    let x := i % bw
    let d0 : B4 := ⟨0, 0, 0, 0⟩
    let b := blocks.getD i d0
    let n0 := if y > 0 then (blocks.getD ((y - 1) * bw + x) d0).b3 else b.b3
    let n1 := if x < bw - 1 then (blocks.getD (y * bw + x + 1) d0).b0 else b.b0
    let tr := cai (n0, n1, b.b3, b.b0) threshold
    let s2 := if y < bh - 1 then (blocks.getD ((y + 1) * bw + x) d0).b0 else b.b0
    let s3 := if x > 0 then (blocks.getD (y * bw + x - 1) d0).b3 else b.b3
    let bl := cai (b.b0, b.b3, s2, s3) threshold
    ⟨b.b0, tr, bl, b.b3⟩)

/-- The final emission loops of Go `decrypt`: for each block `(x, y)` the
code writes `image[2y*W+2x] = b0`, `image[2y*W+2x+1] = b1`,
`image[(2y+1)*W+2x] = b2`, `image[(2y+1)*W+2x+1] = b3` into a
`4*len(quarter)`-byte buffer.  With `W = 2*bw` every index below `4*bw*bh`
is written exactly once, giving this closed form: pixel `(x, y)` is
component `2*(y%2) + (x%2)` of block `(y/2)*bw + x/2`. -/
def emitImage (blocks : List B4) (w bw bh : Nat) : List Nat :=
  (List.range (4 * (bw * bh))).map (fun idx =>
    let x := idx % w
    let y := idx / w
    let b := blocks.getD (y / 2 * bw + x / 2) ⟨0, 0, 0, 0⟩
    if y % 2 = 0 then (if x % 2 = 0 then b.b0 else b.b1)
    else (if x % 2 = 0 then b.b2 else b.b3))

/-- The first half of Go `decrypt`: build one `[4]byte` block per
quarter-image entry (`blocks[i][0] = Quarterimage[i]`,
`blocks[i][3] = Quarterimage[i] + Qtable[Qdiffs[i]]`, wrap-around), replay
the permutation draws to unpermute, then subtract the mask byte from
components 0 and 3 of each block. -/
def decryptBlocks (img : compressedImage) (mask : Nat → Nat)
    (f : Nat → Nat → Nat) : List B4 :=
  let n := img.quarterimage.length
  let blocks0 : List B4 := (List.range n).map (fun i =>
    let q := img.quarterimage.getD i 0
    ⟨q, 0, 0, badd q (img.qtable.getD (img.qdiffs.getD i 0) 0)⟩)
  let blocks1 := unpermuteBlocks f blocks0 ⟨0, 0, 0, 0⟩
  (List.range n).map (fun i =>
    let b := blocks1.getD i ⟨0, 0, 0, 0⟩
    ⟨bsub b.b0 (mask i), b.b1, b.b2, bsub b.b3 (mask i)⟩)

/-- Go `decrypt(img *compressedImage, key []byte)` — the source function of
that name: the whole decryption without the entropy decoding.  The mask and
the permutation draws are abstracted as in `Encrypt` (`newRNG(key, img.Salt)`
reproduces the encryption stream: mask bytes first, then draws).  The blocks
from `decryptBlocks` are interpolated with threshold 20 and emitted. -/
def decrypt (img : compressedImage) (mask : Nat → Nat) (f : Nat → Nat → Nat) :
    Image :=
  let bw := img.width / 2
  let bh := img.height / 2
  let blocks3 := interpolateBlocks (decryptBlocks img mask f) bw bh 20
  { image := emitImage blocks3 img.width bw bh
    width := img.width
    height := img.height
    padWidth := img.padWidth
    padHeight := img.padHeight }

/-- Go `Decrypt(img *CompressedImage, key []byte)`: entropy-decode
`EncQdiffs` (the FSE codec is a black box outside the sources, abstracted as
`decode`), then run `decrypt`.  NOTE: `padWidth := img.padHeight` transcribes
the source assignment `PadWidth: img.PadHeight` in the `compressedImage`
literal. -/
def Decrypt (img : CompressedImage) (decode : List Nat → List Nat)
    (mask : Nat → Nat) (f : Nat → Nat → Nat) : Image :=
  decrypt { quarterimage := img.quarterimage
            qtable := img.qtable
            qdiffs := decode img.encQdiffs
            salt := img.salt
            width := img.width
            height := img.height
            padWidth := img.padHeight
            padHeight := img.padHeight } mask f

/-! ### Concrete inputs used by witnesses and counterexamples -/

/-- A 2x2 image with distinct byte values. -/
def img2x2 : Image := ⟨[10, 20, 30, 40], 2, 2, false, false⟩

/-- A 2x2 image marked as width-padded only. -/
def img2x2PW : Image := ⟨[10, 20, 30, 40], 2, 2, true, false⟩

/-- An encrypted image whose pairwise differences are `[3, 2, 2]`. -/
def encDiffs322 : EncryptedImage := ⟨[(0, 3), (0, 2), (0, 2)], 2, 6, false, false, []⟩

/-- The distortion accumulator that `compress` builds from diffs `[3, 2, 2]`
at quantization 2: one squared-residual unit at index 2, two at index 3. -/
def distortions322 : List Nat := ((List.replicate 256 0).set 2 1).set 3 2

/-- A compressed artifact marked as height-padded only. -/
def compPH : CompressedImage := ⟨[1], List.range 256, [0], [], 2, 2, false, true⟩

/-! ## Part 2: theorems -/

theorem badd_lt (x y : Nat) : badd x y < 256 := Nat.mod_lt _ (by omega)

theorem bsub_lt (x y : Nat) : bsub x y < 256 := Nat.mod_lt _ (by omega)

/-- Masking then unmasking with the same byte is the identity on bytes. -/
theorem bsub_badd (x v : Nat) : bsub (badd x v) v = x % 256 := by
  unfold badd bsub
  omega

/-- Recovering the second element of a pair from the first and the wrapped
difference: `badd x (bsub y x) = y % 256`. -/
theorem badd_bsub (x y : Nat) : badd x (bsub y x) = y % 256 := by
  unfold badd bsub
  omega

/-- Closed form of the comparator network: the returned min, max and median
are `min` of all four, `max` of all four, and `min (max p0 p1) (max p2 p3)`
(the last swap puts the smaller of the two pairwise maxima in slot `b[1]`). -/
theorem minmaxmedian_eq (a b c d : Nat) :
    minmaxmedian (a, b, c, d) =
      (min (min a b) (min c d), max (max a b) (max c d), min (max a b) (max c d)) := by
  simp only [minmaxmedian]
  split_ifs <;> simp only [Prod.mk.injEq] <;> omega

/-! Small kit of transposition permutations on four-element lists. -/

theorem perm01 (a b c d : Nat) : [a, b, c, d].Perm [b, a, c, d] :=
  List.Perm.swap b a [c, d]

theorem perm12 (a b c d : Nat) : [a, b, c, d].Perm [a, c, b, d] :=
  List.Perm.cons a (List.Perm.swap c b [d])

theorem perm23 (a b c d : Nat) : [a, b, c, d].Perm [a, b, d, c] :=
  List.Perm.cons a (List.Perm.cons b (List.Perm.swap d c []))

/-- For `a ≤ b`, `c ≤ d`, the sorted rearrangement of `[a,b,c,d]` is
`[min a c, smaller mid, larger mid, max b d]` with mids `max a c`, `min b d`. -/
theorem perm_mid_helper (a b c d : Nat) (hab : a ≤ b) (hcd : c ≤ d) :
    [a, b, c, d].Perm
      [min a c, min (max a c) (min b d), max (max a c) (min b d), max b d] := by
  rcases le_total a c with h3 | h3 <;> rcases le_total b d with h4 | h4
  · rcases le_total b c with h5 | h5
    · have e : [min a c, min (max a c) (min b d), max (max a c) (min b d), max b d]
          = [a, b, c, d] := by
        simp only [List.cons.injEq, and_true]
        omega
      rw [e]
    · have e : [min a c, min (max a c) (min b d), max (max a c) (min b d), max b d]
          = [a, c, b, d] := by
        simp only [List.cons.injEq, and_true]
        omega
      rw [e]
      exact perm12 a b c d
  · have e : [min a c, min (max a c) (min b d), max (max a c) (min b d), max b d]
        = [a, c, d, b] := by
      simp only [List.cons.injEq, and_true]
      omega
    rw [e]
    exact (perm12 a b c d).trans (perm23 a c b d)
  · have e : [min a c, min (max a c) (min b d), max (max a c) (min b d), max b d]
        = [c, a, b, d] := by
      simp only [List.cons.injEq, and_true]
      omega
    rw [e]
    exact (perm12 a b c d).trans (perm01 a c b d)
  · rcases le_total a d with h5 | h5
    · have e : [min a c, min (max a c) (min b d), max (max a c) (min b d), max b d]
          = [c, a, d, b] := by
        simp only [List.cons.injEq, and_true]
        omega
      rw [e]
      exact ((perm12 a b c d).trans (perm01 a c b d)).trans (perm23 c a b d)
    · have e : [min a c, min (max a c) (min b d), max (max a c) (min b d), max b d]
          = [c, d, a, b] := by
        simp only [List.cons.injEq, and_true]
        omega
      rw [e]
      exact (((perm12 a b c d).trans (perm01 a c b d)).trans
        (perm23 c a b d)).trans (perm12 c a d b)

/-- The four neighbours sort (as a permutation) into
`[mn, x, y, mx]` where `mn`, `mx` are the values `minmaxmedian` returns as
min and max and the two mids contain the returned median. -/
theorem minmaxmedian_orderStats (a b c d : Nat) :
    ∃ x y, (minmaxmedian (a, b, c, d)).1 ≤ x ∧ x ≤ y ∧
      y ≤ (minmaxmedian (a, b, c, d)).2.1 ∧
      ((minmaxmedian (a, b, c, d)).2.2 = x ∨ (minmaxmedian (a, b, c, d)).2.2 = y) ∧
      [a, b, c, d].Perm
        [(minmaxmedian (a, b, c, d)).1, x, y, (minmaxmedian (a, b, c, d)).2.1] := by
  rw [minmaxmedian_eq]
  dsimp only
  refine ⟨min (max (min a b) (min c d)) (min (max a b) (max c d)),
          max (max (min a b) (min c d)) (min (max a b) (max c d)),
          by omega, by omega, by omega, by omega, ?_⟩
  rcases le_total a b with h1 | h1 <;> rcases le_total c d with h2 | h2
  · have e : [min (min a b) (min c d),
        min (max (min a b) (min c d)) (min (max a b) (max c d)),
        max (max (min a b) (min c d)) (min (max a b) (max c d)),
        max (max a b) (max c d)]
        = [min a c, min (max a c) (min b d), max (max a c) (min b d), max b d] := by
      simp only [List.cons.injEq, and_true]
      omega
    rw [e]
    exact perm_mid_helper a b c d h1 h2
  · have e : [min (min a b) (min c d),
        min (max (min a b) (min c d)) (min (max a b) (max c d)),
        max (max (min a b) (min c d)) (min (max a b) (max c d)),
        max (max a b) (max c d)]
        = [min a d, min (max a d) (min b c), max (max a d) (min b c), max b c] := by
      simp only [List.cons.injEq, and_true]
      omega
    rw [e]
    exact (perm23 a b c d).trans (perm_mid_helper a b d c h1 h2)
  · have e : [min (min a b) (min c d),
        min (max (min a b) (min c d)) (min (max a b) (max c d)),
        max (max (min a b) (min c d)) (min (max a b) (max c d)),
        max (max a b) (max c d)]
        = [min b c, min (max b c) (min a d), max (max b c) (min a d), max a d] := by
      simp only [List.cons.injEq, and_true]
      omega
    rw [e]
    exact (perm01 a b c d).trans (perm_mid_helper b a c d h1 h2)
  · have e : [min (min a b) (min c d),
        min (max (min a b) (min c d)) (min (max a b) (max c d)),
        max (max (min a b) (min c d)) (min (max a b) (max c d)),
        max (max a b) (max c d)]
        = [min b d, min (max b d) (min a c), max (max b d) (min a c), max a c] := by
      simp only [List.cons.injEq, and_true]
      omega
    rw [e]
    exact ((perm01 a b c d).trans (perm23 b a c d)).trans
      (perm_mid_helper b a d c h1 h2)

/-- For byte inputs, each branch of `cai` is below 256, so the trailing
`% 256` conversions are identities and `cai` equals the untruncated decision
tree. -/
theorem cai_untruncated (a b c d : Nat) (t : Int)
    (ha : a < 256) (hb : b < 256) (hc : c < 256) (hd : d < 256) :
    cai (a, b, c, d) t =
      (if ((minmaxmedian (a, b, c, d)).2.1 : Int) - ((minmaxmedian (a, b, c, d)).1 : Int) ≤ t
        then (a + b + c + d + 2) / 4
      else if (absdiff b d : Int) - (absdiff a c : Int) > t then (a + c + 1) / 2
      else if (absdiff a c : Int) - (absdiff b d : Int) > t then (b + d + 1) / 2
      else (minmaxmedian (a, b, c, d)).2.2) := by
  simp only [cai, minmaxmedian_eq]
  split_ifs
  · exact Nat.mod_eq_of_lt (by omega)
  · exact Nat.mod_eq_of_lt (by omega)
  · exact Nat.mod_eq_of_lt (by omega)
  · rfl

/-- C5: for every four neighbour bytes `(N, E, S, W) = (a, b, c, d)` and every
threshold `t`, `cai` follows the four-case decision tree exactly: average
(rounded) when `max - min ≤ t`, `round((N+S)/2)` when the horizontal gradient
dominates, `round((E+W)/2)` when the vertical gradient dominates, median
otherwise — where the min and max computed by `minmaxmedian` are the true
minimum and maximum of the four neighbours (endpoints of their sorted
rearrangement) and the median is one of the two middle order statistics. -/
theorem cai_decision_tree (a b c d : Nat) (t : Int)
    (ha : a < 256) (hb : b < 256) (hc : c < 256) (hd : d < 256) :
    (∃ x y, (minmaxmedian (a, b, c, d)).1 ≤ x ∧ x ≤ y ∧
      y ≤ (minmaxmedian (a, b, c, d)).2.1 ∧
      ((minmaxmedian (a, b, c, d)).2.2 = x ∨ (minmaxmedian (a, b, c, d)).2.2 = y) ∧
      [a, b, c, d].Perm
        [(minmaxmedian (a, b, c, d)).1, x, y, (minmaxmedian (a, b, c, d)).2.1]) ∧
    cai (a, b, c, d) t =
      (if ((minmaxmedian (a, b, c, d)).2.1 : Int) - ((minmaxmedian (a, b, c, d)).1 : Int) ≤ t
        then (a + b + c + d + 2) / 4
      else if (absdiff b d : Int) - (absdiff a c : Int) > t then (a + c + 1) / 2
      else if (absdiff a c : Int) - (absdiff b d : Int) > t then (b + d + 1) / 2
      else (minmaxmedian (a, b, c, d)).2.2) :=
  ⟨minmaxmedian_orderStats a b c d, cai_untruncated a b c d t ha hb hc hd⟩

theorem cai_decision_tree_witness : cai (10, 20, 30, 40) 5 = 20 := by
  have h := cai_decision_tree 10 20 30 40 5 (by decide) (by decide) (by decide) (by decide)
  rw [h.2]
  decide

/-- C9: for every four neighbour bytes and every non-negative threshold, the
value `cai` returns lies between the minimum and the maximum of the four
neighbours; the intermediate sums are at most `4*255 + 2`, and the final
conversion to byte never truncates (each `% 256` in `cai` is the identity, so
the result equals the untruncated integer quotient of the taken branch). -/
theorem cai_in_range (a b c d : Nat) (t : Int) (ht : 0 ≤ t)
    (ha : a < 256) (hb : b < 256) (hc : c < 256) (hd : d < 256) :
    min (min a b) (min c d) ≤ cai (a, b, c, d) t ∧
    cai (a, b, c, d) t ≤ max (max a b) (max c d) ∧
    a + b + c + d + 2 ≤ 4 * 255 + 2 ∧
    cai (a, b, c, d) t =
      (if ((minmaxmedian (a, b, c, d)).2.1 : Int) - ((minmaxmedian (a, b, c, d)).1 : Int) ≤ t
        then (a + b + c + d + 2) / 4
      else if (absdiff b d : Int) - (absdiff a c : Int) > t then (a + c + 1) / 2
      else if (absdiff a c : Int) - (absdiff b d : Int) > t then (b + d + 1) / 2
      else (minmaxmedian (a, b, c, d)).2.2) := by
  refine ⟨?_, ?_, by omega, cai_untruncated a b c d t ha hb hc hd⟩ <;>
    simp only [cai, minmaxmedian_eq] <;> split_ifs <;>
      first
        | (rw [Nat.mod_eq_of_lt (by omega)]; omega)
        | omega

theorem cai_in_range_witness :
    min (min 7 250) (min 13 18) ≤ cai (7, 250, 13, 18) 20 ∧
      cai (7, 250, 13, 18) 20 ≤ max (max 7 250) (max 13 18) :=
  ⟨(cai_in_range 7 250 13 18 20 (by decide) (by decide) (by decide) (by decide)
      (by decide)).1,
   (cai_in_range 7 250 13 18 20 (by decide) (by decide) (by decide) (by decide)
      (by decide)).2.1⟩

/-! ### Permutation machinery -/

theorem getD_of_lt {α : Type} (l : List α) (j : Nat) (d : α) (h : j < l.length) :
    l.getD j d = l[j] := by
  rw [List.getD_eq_getElem?_getD, List.getElem?_eq_getElem h]
  rfl

theorem swapHead_length {α : Type} (n : Nat) (l : List α) :
    (swapHead n l).length = l.length := by
  match n, l with
  | 0, l => rfl
  | _ + 1, [] => rfl
  | n + 1, x :: xs => simp [swapHead]

theorem swapHead_map {α β : Type} (g : α → β) (n : Nat) (l : List α) :
    swapHead n (l.map g) = (swapHead n l).map g := by
  match n, l with
  | 0, l => rfl
  | _ + 1, [] => rfl
  | n + 1, x :: xs =>
    simp only [List.map_cons, swapHead, List.map_set]
    congr 1
    by_cases h : n < xs.length
    · rw [List.getD_eq_getElem?_getD, List.getD_eq_getElem?_getD,
        List.getElem?_eq_getElem (by simpa using h), List.getElem?_eq_getElem h]
      simp
    · rw [List.getD_eq_getElem?_getD, List.getD_eq_getElem?_getD,
        List.getElem?_eq_none (by simpa using h), List.getElem?_eq_none (by omega)]
      rfl

theorem swapHead_cons_perm {α : Type} (x : α) :
    ∀ (n : Nat) (xs : List α), (xs.getD n x :: xs.set n x).Perm (x :: xs)
  | 0, [] => by simp
  | 0, z :: zs => by simpa using List.Perm.swap x z zs
  | n + 1, [] => by simp
  | n + 1, z :: zs => by
    have step1 : (zs.getD n x :: z :: zs.set n x).Perm
        (z :: zs.getD n x :: zs.set n x) :=
      List.Perm.swap z (zs.getD n x) (zs.set n x)
    have step2 : (z :: zs.getD n x :: zs.set n x).Perm (z :: x :: zs) :=
      (swapHead_cons_perm x n zs).cons z
    have step3 : (z :: x :: zs).Perm (x :: z :: zs) := List.Perm.swap x z zs
    simpa using (step1.trans step2).trans step3

theorem swapHead_perm {α : Type} (n : Nat) (l : List α) : (swapHead n l).Perm l := by
  match n, l with
  | 0, l => exact List.Perm.refl l
  | _ + 1, [] => exact List.Perm.refl []
  | n + 1, x :: xs => exact swapHead_cons_perm x n xs

theorem fyN_cons {α : Type} (f : Nat → Nat → Nat) (m i : Nat) (x : α)
    (xs ys : List α) (y : α)
    (hsw : swapHead (f i (xs.length + 1)) (x :: xs) = y :: ys) :
    fyN f (m + 1) i (x :: xs) = y :: fyN f m (i + 1) ys := by
  simp only [fyN]
  rw [hsw]

theorem fyN_length {α : Type} (f : Nat → Nat → Nat) :
    ∀ (m i : Nat) (l : List α), l.length = m → (fyN f m i l).length = m := by
  intro m
  induction m with
  | zero =>
    intro i l h
    cases l with
    | nil => rfl
    | cons x xs => simp at h
  | succ m ih =>
    intro i l h
    cases l with
    | nil => simp at h
    | cons x xs =>
      have hlen := swapHead_length (f i (xs.length + 1)) (x :: xs)
      cases hsw : swapHead (f i (xs.length + 1)) (x :: xs) with
      | nil => rw [hsw] at hlen; simp at hlen
      | cons y ys =>
        rw [hsw] at hlen
        simp only [List.length_cons] at hlen h
        rw [fyN_cons f m i x xs ys y hsw, List.length_cons,
          ih (i + 1) ys (by omega)]

theorem fyN_map {α β : Type} (g : α → β) (f : Nat → Nat → Nat) :
    ∀ (m i : Nat) (l : List α), l.length = m →
      fyN f m i (l.map g) = (fyN f m i l).map g := by
  intro m
  induction m with
  | zero =>
    intro i l h
    cases l with
    | nil => rfl
    | cons x xs => simp at h
  | succ m ih =>
    intro i l h
    cases l with
    | nil => simp at h
    | cons x xs =>
      have hlen := swapHead_length (f i (xs.length + 1)) (x :: xs)
      cases hsw : swapHead (f i (xs.length + 1)) (x :: xs) with
      | nil => rw [hsw] at hlen; simp at hlen
      | cons y ys =>
        rw [hsw] at hlen
        simp only [List.length_cons] at hlen h
        have hswm : swapHead (f i ((xs.map g).length + 1)) (g x :: xs.map g)
            = g y :: ys.map g := by
          rw [List.length_map, ← List.map_cons, swapHead_map, hsw, List.map_cons]
        rw [List.map_cons, fyN_cons f m i (g x) (xs.map g) (ys.map g) (g y) hswm,
          fyN_cons f m i x xs ys y hsw, List.map_cons,
          ih (i + 1) ys (by omega)]

theorem fyN_perm {α : Type} (f : Nat → Nat → Nat) :
    ∀ (m i : Nat) (l : List α), l.length = m → (fyN f m i l).Perm l := by
  intro m
  induction m with
  | zero =>
    intro i l h
    cases l with
    | nil => exact List.Perm.refl []
    | cons x xs => simp at h
  | succ m ih =>
    intro i l h
    cases l with
    | nil => simp at h
    | cons x xs =>
      have hlen := swapHead_length (f i (xs.length + 1)) (x :: xs)
      cases hsw : swapHead (f i (xs.length + 1)) (x :: xs) with
      | nil => rw [hsw] at hlen; simp at hlen
      | cons y ys =>
        rw [hsw] at hlen
        simp only [List.length_cons] at hlen h
        rw [fyN_cons f m i x xs ys y hsw]
        exact ((ih (i + 1) ys (by omega)).cons y).trans
          (hsw ▸ swapHead_perm (f i (xs.length + 1)) (x :: xs))

theorem map_getD_range {α : Type} (d : α) :
    ∀ (l : List α), (List.range l.length).map (fun j => l.getD j d) = l := by
  intro l
  induction l with
  | nil => rfl
  | cons x xs ih =>
    rw [List.length_cons, List.range_succ_eq_map, List.map_cons, List.map_map]
    simp only [Function.comp, List.getD_cons_zero, List.getD_cons_succ]
    exact congrArg (x :: ·) ih

theorem zip_map_snd {α : Type} (g : Nat → α) :
    ∀ (l : List Nat) (q : Nat × α), q ∈ l.zip (l.map g) → q.2 = g q.1 := by
  intro l
  induction l with
  | nil =>
    intro q hq
    simp at hq
  | cons x xs ih =>
    intro q hq
    simp only [List.map_cons, List.zip_cons_cons, List.mem_cons] at hq
    rcases hq with h | h
    · rw [h]
    · exact ih q h

theorem scatter_length {α : Type} :
    ∀ (pairs : List (Nat × α)) (init : List α),
      (pairs.foldl (fun r q => r.set q.1 q.2) init).length = init.length := by
  intro pairs
  induction pairs with
  | nil => intro init; rfl
  | cons p rest ih =>
    intro init
    rw [List.foldl_cons, ih, List.length_set]

theorem scatter_getD {α : Type} (g : Nat → α) (d : α) :
    ∀ (pairs : List (Nat × α)) (init : List α) (j : Nat),
      (∀ q ∈ pairs, q.2 = g q.1) → j < init.length →
      (pairs.foldl (fun r q => r.set q.1 q.2) init).getD j d =
        if j ∈ pairs.map Prod.fst then g j else init.getD j d := by
  intro pairs
  induction pairs with
  | nil =>
    intro init j _ _
    simp
  | cons p rest ih =>
    intro init j hg hj
    obtain ⟨v, b⟩ := p
    have hb : b = g v := hg (v, b) (by simp)
    have hrest : ∀ q ∈ rest, q.2 = g q.1 := fun q hq => hg q (by simp [hq])
    rw [List.foldl_cons]
    rw [ih (init.set v b) j hrest (by simpa using hj)]
    by_cases hmem : j ∈ rest.map Prod.fst
    · simp [hmem]
    · rw [if_neg hmem]
      simp only [List.map_cons, List.mem_cons]
      by_cases hjv : j = v
      · rw [if_pos (Or.inl hjv), hjv, List.getD_eq_getElem?_getD,
          List.getElem?_set_self (hjv ▸ hj), hb]
        rfl
      · rw [if_neg (by simp [hjv, hmem])]
        rw [List.getD_eq_getElem?_getD, List.getElem?_set_ne (fun e => hjv e.symm),
          ← List.getD_eq_getElem?_getD]

/-- Core inversion: scattering the list permuted by `fyN` through the index
array permuted by the same draws restores the original list. -/
theorem unpermute_permute {α : Type} (f : Nat → Nat → Nat) (p : List α) (d : α) :
    unpermuteBlocks f (permuteHalfimage f p) d = p := by
  have hlen : (permuteHalfimage f p).length = p.length :=
    fyN_length f p.length 0 p rfl
  have hp : (List.range p.length).map (fun j => p.getD j d) = p := map_getD_range d p
  have hblocks : permuteHalfimage f p
      = (fyN f p.length 0 (List.range p.length)).map (fun j => p.getD j d) := by
    conv_lhs => rw [permuteHalfimage, ← hp]
    rw [List.length_map, List.length_range]
    exact fyN_map (fun j => p.getD j d) f p.length 0 (List.range p.length)
      (List.length_range p.length)
  have hidx_len : (fyN f p.length 0 (List.range p.length)).length = p.length :=
    fyN_length f p.length 0 (List.range p.length) (List.length_range p.length)
  have hidx_perm : (fyN f p.length 0 (List.range p.length)).Perm (List.range p.length) :=
    fyN_perm f p.length 0 (List.range p.length) (List.length_range p.length)
  simp only [unpermuteBlocks, scatter, hlen]
  apply List.ext_getElem
  · rw [scatter_length, List.length_replicate]
  · intro j h1 h2
    have hjn : j < p.length := h2
    rw [← getD_of_lt _ j d h1, ← getD_of_lt _ j d h2]
    rw [scatter_getD (fun j => p.getD j d) d _ _ j
      (by
        intro q hq
        rw [hblocks] at hq
        exact zip_map_snd (fun j => p.getD j d) _ q hq)
      (by rw [List.length_replicate]; exact hjn)]
    rw [List.map_fst_zip _ _ (by rw [hidx_len, hblocks, List.length_map, hidx_len])]
    rw [if_pos (hidx_perm.mem_iff.mpr (List.mem_range.mpr hjn))]

/-- C2: permuting an even-length byte array (as its sequence of two-byte
blocks) and then applying `unpermuteBlocks` to those blocks with a fresh
deterministic draw sequence in the identical state recovers the original
block sequence exactly: the data-pair-swapping loop and the
index-swap-then-scatter loop are mutual inverses. -/
theorem permuteHalfimage_unpermuteBlocks_inverse (f : Nat → Nat → Nat)
    (hf : ∀ i n, 0 < n → f i n < n) (p : List (Nat × Nat)) :
    unpermuteBlocks f
        ((permuteHalfimage f p).map (fun pr => B4.mk pr.1 pr.2 0 0))
        ⟨0, 0, 0, 0⟩
      = p.map (fun pr => B4.mk pr.1 pr.2 0 0) := by
  have h1 : (permuteHalfimage f p).map (fun pr => B4.mk pr.1 pr.2 0 0)
      = permuteHalfimage f (p.map (fun pr => B4.mk pr.1 pr.2 0 0)) := by
    unfold permuteHalfimage
    rw [List.length_map]
    exact (fyN_map (fun pr => B4.mk pr.1 pr.2 0 0) f p.length 0 p rfl).symm
  rw [h1, unpermute_permute]

theorem permuteHalfimage_unpermuteBlocks_inverse_witness :
    unpermuteBlocks (fun i n => i % n)
        ((permuteHalfimage (fun i n => i % n) [(1, 2), (3, 4), (5, 6)]).map
          (fun pr => B4.mk pr.1 pr.2 0 0))
        ⟨0, 0, 0, 0⟩
      = [(1, 2), (3, 4), (5, 6)].map (fun pr => B4.mk pr.1 pr.2 0 0) :=
  permuteHalfimage_unpermuteBlocks_inverse (fun i n => i % n)
    (fun _ n h => Nat.mod_lt _ h) [(1, 2), (3, 4), (5, 6)]

/-! ### Metadata and padding bugs (evaluations) -/

/-- C7 fails in the source: `Encrypt`, `compress` and `Decrypt` each copy the
input's `PadHeight` into the output's `PadWidth`.  Evaluated at inputs whose
two pad flags differ: `Encrypt` of a width-padded-only image loses the flag,
`compress` of a width-padded-only encrypted image loses it, and `Decrypt` of
a height-padded-only artifact invents it. -/
theorem pad_metadata_bug :
    (Encrypt img2x2PW (fun _ => 0) (fun _ _ => 0) []).padWidth = false ∧
    img2x2PW.padWidth = true ∧
    ((compress ⟨[(0, 0)], 2, 2, true, false, []⟩ 1).toOption.map
        compressedImage.padWidth = some false) ∧
    (Decrypt compPH (fun l => l) (fun _ => 0) (fun _ _ => 0)).padWidth = true ∧
    compPH.padWidth = false := by decide

/-- C6 fails in the source: `NewImage` on an even-width, odd-height input
returns an image whose pixel buffer is empty (the padded buffer is created
with length zero and the row copy loop is skipped for even widths), instead
of the 8-byte buffer `[1,2,3,4,5,6,0,0]` the claim requires; and on an
odd-width input with `height ≥ 2` the row copy slices out of range. -/
theorem newImage_padding_bug :
    NewImage [1, 2, 3, 4, 5, 6] 2 3 = .ok ⟨[], 2, 4, false, true⟩ ∧
    ([] : List Nat).length ≠ 2 * 4 ∧
    NewImage (List.replicate 15 7) 3 5 = .panicked := by decide

/-- C3 fails in the source: `makeQtable` compares `distortions[j]` (bucket
0's entries) instead of `distortions[(k<<logq)+j]`.  With the distortions
that `compress` accumulates from diffs `[3,2,2]` at quantization 2 (one
squared-residual unit at index 2, two at index 3), bucket 1's own minimizer
is entry 2 — `distortions[2] ≤ distortions[2+j]` for all `j < 2` — yet the
code returns entry 3 for bucket 1. -/
theorem makeQtable_bucket_bug :
    (compress encDiffs322 2).toOption
      = some ⟨[0, 0, 0], makeQtable distortions322 2, [1, 1, 1], [],
          2, 6, false, false⟩ ∧
    (makeQtable distortions322 2).getD 1 0 = 3 ∧
    (∀ j, j < 2 → distortions322.getD 2 0 ≤ distortions322.getD (2 + j) 0) ∧
    (2 : Nat) ≠ 3 := by decide

/-! ### C8: quantization validation -/

theorem onesCount8_powers :
    ∀ q, q < 256 → (onesCount8 q = 1 ↔
      (q = 1 ∨ q = 2 ∨ q = 4 ∨ q = 8 ∨ q = 16 ∨ q = 32 ∨ q = 64 ∨ q = 128)) := by
  decide

/-- C8: for every encrypted image and byte quantization `q`, `compress`
returns an error exactly when `q` is zero or not a power of two (and returns
no compressed image in that case), and succeeds exactly for
`q ∈ {1, 2, 4, 8, 16, 32, 64, 128}`. -/
theorem compress_invalid_quantization (img : EncryptedImage) (q : Nat)
    (hq : q < 256) :
    ((∃ e, compress img q = Except.error e) ↔ (q = 0 ∨ ∀ k, q ≠ 2 ^ k)) ∧
    ((∃ c, compress img q = Except.ok c) ↔
      (q = 1 ∨ q = 2 ∨ q = 4 ∨ q = 8 ∨ q = 16 ∨ q = 32 ∨ q = 64 ∨ q = 128)) := by
  have hiff := onesCount8_powers q hq
  have hpow2 : (q = 1 ∨ q = 2 ∨ q = 4 ∨ q = 8 ∨ q = 16 ∨ q = 32 ∨ q = 64 ∨ q = 128)
      ↔ ¬(q = 0 ∨ ∀ k, q ≠ 2 ^ k) := by
    constructor
    · intro h hc
      rcases h with rfl | rfl | rfl | rfl | rfl | rfl | rfl | rfl <;>
        rcases hc with h0 | hall <;>
          first
            | exact absurd h0 (by decide)
            | exact absurd (by decide) (hall 0)
            | exact absurd (by decide) (hall 1)
            | exact absurd (by decide) (hall 2)
            | exact absurd (by decide) (hall 3)
            | exact absurd (by decide) (hall 4)
            | exact absurd (by decide) (hall 5)
            | exact absurd (by decide) (hall 6)
            | exact absurd (by decide) (hall 7)
    · intro hc
      push_neg at hc
      obtain ⟨hne, k, hk⟩ := hc
      have hk8 : k < 8 := by
        by_contra hge
        push_neg at hge
        have h28 : (2 : Nat) ^ 8 ≤ 2 ^ k := Nat.pow_le_pow_right (by omega) hge
        have h256 : (2 : Nat) ^ 8 = 256 := by decide
        omega
      interval_cases k <;> rw [hk] <;> decide
  by_cases h1 : onesCount8 q = 1
  · have hok : ∃ c, compress img q = Except.ok c := by
      simp only [compress, if_neg (not_not_intro h1)]
      exact ⟨_, rfl⟩
    obtain ⟨c, hc⟩ := hok
    constructor
    · rw [hc]
      constructor
      · rintro ⟨e, he⟩
        exact absurd he (by simp)
      · intro hcontra
        exact absurd (hiff.mp h1) (by rw [hpow2]; exact fun hn => hn hcontra)
    · rw [hc]
      constructor
      · intro _
        exact hiff.mp h1
      · intro _
        exact ⟨c, rfl⟩
  · have herr : compress img q = Except.error ("quantization must be power of 2") := by
      simp only [compress, if_pos h1]
    constructor
    · rw [herr]
      constructor
      · intro _
        by_contra hcontra
        rw [← hpow2] at hcontra
        exact absurd (hiff.mpr hcontra) h1
      · intro _
        exact ⟨_, rfl⟩
    · rw [herr]
      constructor
      · rintro ⟨c, hcc⟩
        exact absurd hcc (by simp)
      · intro hmem
        exact absurd (hiff.mpr hmem) h1

/-! ### C10: the state-threaded `unpermuteBlocks` and its frame property -/

theorem swapIdx_zero {α : Type} (s : List α) (n : Nat) :
    swapIdx s 0 n = swapHead n s := by
  match s, n with
  | [], n =>
    cases n <;> rfl
  | x :: xs, 0 => simp [swapIdx, swapHead]
  | x :: xs, j + 1 =>
    rcases hj : xs[j]? with _ | b
    · have hlen : xs.length ≤ j := List.getElem?_eq_none_iff.mp hj
      have hgd : xs.getD j x = x := by
        rw [List.getD_eq_getElem?_getD, List.getElem?_eq_none hlen]
        rfl
      simp [swapIdx, swapHead, List.getElem?_cons_succ, hj,
        List.set_eq_of_length_le hlen, hgd]
    · have hlen : j < xs.length := by
        by_contra hge
        rw [List.getElem?_eq_none (by omega)] at hj
        exact absurd hj (by simp)
      have hgd : xs.getD j x = b := by
        rw [List.getD_eq_getElem?_getD, hj]
        rfl
      simp [swapIdx, swapHead, List.getElem?_cons_succ, hj, hgd]

theorem swapIdx_cons {α : Type} (x : α) (rest : List α) (k j : Nat) :
    swapIdx (x :: rest) (k + 1) (k + 1 + j) = x :: swapIdx rest k (k + j) := by
  have harith : k + 1 + j = (k + j) + 1 := by omega
  rw [harith]
  rcases h1 : rest[k]? with _ | a <;> rcases h2 : rest[k + j]? with _ | b <;>
    simp [swapIdx, List.getElem?_cons_succ, h1, h2, List.set_cons_succ]

theorem swapIdx_take_drop {α : Type} :
    ∀ (k : Nat) (s : List α) (n : Nat), k < s.length →
      swapIdx s k (k + n) = s.take k ++ swapHead n (s.drop k) := by
  intro k
  induction k with
  | zero =>
    intro s n _
    simpa using swapIdx_zero s n
  | succ k ih =>
    intro s n hk
    cases s with
    | nil => simp at hk
    | cons x rest =>
      rw [swapIdx_cons x rest k n, List.take_succ_cons, List.drop_succ_cons,
        ih rest n (by simpa using hk), List.cons_append]

theorem swapIdx_length {α : Type} (s : List α) (i j : Nat) :
    (swapIdx s i j).length = s.length := by
  unfold swapIdx
  rcases h1 : s[i]? with _ | a <;> rcases h2 : s[j]? with _ | b <;> simp

/-- The in-place suffix-window swap loop (offsets into the full array, as in
the Go slices `s = s[1:]`) computes the same permutation as the recursive
`fyN`. -/
theorem window_eq {α : Type} (f : Nat → Nat → Nat) :
    ∀ (m k : Nat) (s : List α), k + m = s.length →
      (List.range' k m).foldl (fun t j => swapIdx t j (j + f j (t.length - j))) s
        = s.take k ++ fyN f m k (s.drop k) := by
  intro m
  induction m with
  | zero =>
    intro k s hk
    have hdrop : s.drop k = [] := List.drop_of_length_le (by omega)
    rw [List.range'_zero, List.foldl_nil, hdrop]
    have : fyN (α := α) f 0 k [] = [] := rfl
    rw [this, List.append_nil, List.take_of_length_le (by omega)]
  | succ m ih =>
    intro k s hk
    have hk_lt : k < s.length := by omega
    rw [List.range'_succ, List.foldl_cons]
    have hstep : swapIdx s k (k + f k (s.length - k))
        = s.take k ++ swapHead (f k (s.length - k)) (s.drop k) :=
      swapIdx_take_drop k s (f k (s.length - k)) hk_lt
    cases hdrop : s.drop k with
    | nil =>
      have : s.length - k = 0 := by
        have := congrArg List.length hdrop
        simpa using this
      omega
    | cons x xs =>
      have hxs_len : xs.length + 1 = m + 1 := by
        have := congrArg List.length hdrop
        simp at this
        omega
      have hlen_sub : s.length - k = m + 1 := by omega
      cases hsw : swapHead (f k (xs.length + 1)) (x :: xs) with
      | nil =>
        have := swapHead_length (f k (xs.length + 1)) (x :: xs)
        rw [hsw] at this
        simp at this
      | cons y ys =>
        have hys_len : ys.length = xs.length := by
          have := swapHead_length (f k (xs.length + 1)) (x :: xs)
          rw [hsw] at this
          simpa using this
        have hdraw : f k (s.length - k) = f k (xs.length + 1) := by
          rw [hlen_sub]
          congr 1
          omega
        have ht1 : swapIdx s k (k + f k (s.length - k)) = s.take k ++ y :: ys := by
          rw [hstep, hdrop, hdraw, hsw]
        rw [ht1]
        have htk_len : (s.take k).length = k := List.length_take_of_le (by omega)
        have ht1_len : (s.take k ++ y :: ys).length = s.length := by
          simp [htk_len]
          omega
        rw [ih (k + 1) (s.take k ++ y :: ys) (by omega)]
        have htake : (s.take k ++ y :: ys).take (k + 1) = s.take k ++ [y] := by
          rw [List.take_append_eq_append_take, List.take_of_length_le (by omega),
            htk_len]
          congr 1
          have : k + 1 - k = 1 := by omega
          rw [this]
          rfl
        have hdrop2 : (s.take k ++ y :: ys).drop (k + 1) = ys := by
          rw [List.drop_append_eq_append_drop, List.drop_of_length_le (by omega),
            htk_len]
          have : k + 1 - k = 1 := by omega
          rw [this]
          rfl
        rw [htake, hdrop2, fyN_cons f m k x xs ys y hsw,
          List.append_assoc, List.singleton_append]

/-- Filling a buffer of length at least `n` with `buf[i] = i` for
`i = 0, ..., n-1` produces `[0, ..., n-1]` followed by the untouched tail. -/
theorem fill_range :
    ∀ (n : Nat) (init : List Nat), n ≤ init.length →
      (List.range n).foldl (fun idx i => idx.set i i) init
        = List.range n ++ init.drop n := by
  intro n
  induction n with
  | zero =>
    intro init _
    simp
  | succ n ih =>
    intro init hn
    rw [List.range_succ, List.foldl_append, ih init (by omega), List.foldl_cons,
      List.foldl_nil]
    rw [List.set_append_right _ _ (by simp), List.length_range]
    have hsub : n - n = 0 := by omega
    rw [hsub, List.drop_eq_getElem_cons (by omega), List.set_cons_zero,
      List.append_assoc, List.singleton_append]

theorem foldl_set_indices {α : Type} :
    ∀ (l : List Nat) (st : UnpermuteState α),
      l.foldl (fun st i => { st with indices := st.indices.set i i }) st
        = ⟨st.blocks, l.foldl (fun idx i => idx.set i i) st.indices, st.ret⟩ := by
  intro l
  induction l with
  | nil => intro st; rfl
  | cons x xs ih =>
    intro st
    rw [List.foldl_cons, ih, List.foldl_cons]

theorem foldl_swap_indices {α : Type} (f : Nat → Nat → Nat) :
    ∀ (l : List Nat) (st : UnpermuteState α),
      l.foldl (fun st k =>
          { st with indices := swapIdx st.indices k (k + f k (st.indices.length - k)) }) st
        = ⟨st.blocks,
           l.foldl (fun t j => swapIdx t j (j + f j (t.length - j))) st.indices,
           st.ret⟩ := by
  intro l
  induction l with
  | nil => intro st; rfl
  | cons x xs ih =>
    intro st
    rw [List.foldl_cons, ih, List.foldl_cons]

theorem foldl_set_ret {α : Type} :
    ∀ (l : List (Nat × α)) (st : UnpermuteState α),
      l.foldl (fun st q => { st with ret := st.ret.set q.1 q.2 }) st
        = ⟨st.blocks, st.indices, l.foldl (fun r q => r.set q.1 q.2) st.ret⟩ := by
  intro l
  induction l with
  | nil => intro st; rfl
  | cons x xs ih =>
    intro st
    rw [List.foldl_cons, ih, List.foldl_cons]

/-- C10: the statement-level `unpermuteBlocks` never mutates its input: the
caller's block array is element-for-element unchanged after the call (no loop
ever assigns to it), and the function's result is the freshly allocated `ret`
array holding exactly the unpermuted blocks that `unpermuteBlocks`
computes. -/
theorem unpermuteBlocks_no_mutation {α : Type} (f : Nat → Nat → Nat)
    (blocks : List α) (d : α) :
    (unpermuteBlocksSt f blocks d).blocks = blocks ∧
    (unpermuteBlocksSt f blocks d).ret = unpermuteBlocks f blocks d := by
  have hfill : (List.range blocks.length).foldl (fun idx i => idx.set i i)
      (List.replicate blocks.length 0) = List.range blocks.length := by
    rw [fill_range blocks.length (List.replicate blocks.length 0) (by simp)]
    simp
  have hwin : (List.range blocks.length).foldl
      (fun t j => swapIdx t j (j + f j (t.length - j))) (List.range blocks.length)
      = fyN f blocks.length 0 (List.range blocks.length) := by
    rw [List.range_eq_range' blocks.length,
      window_eq f blocks.length 0 (List.range' 0 blocks.length) (by simp)]
    simp [← List.range_eq_range']
  unfold unpermuteBlocksSt
  simp only [foldl_set_indices, foldl_swap_indices f, foldl_set_ret,
    List.length_replicate, List.length_range, hfill, hwin]
  simp only [unpermuteBlocks, scatter]
  constructor
  · trivial
  · trivial

/-! ### C4: the bounded draws of `math/rand` over the keystream source -/

theorem lor_step {b : Nat} (i a : Nat) (h : b < 2 ^ i) :
    a * 2 ^ i ||| b = a * 2 ^ i + b := by
  rw [Nat.mul_comm a (2 ^ i)]
  exact (Nat.mul_add_lt_is_or h a).symm

/-- The big-endian masked assembly in `int63` equals the byte-weighted sum,
and fits in 63 bits. -/
theorem int63_sum (stream : Nat → Nat) (pos : Nat) :
    int63 stream pos =
      stream pos % 256 % 128 * 2 ^ 56 + stream (pos + 1) % 256 * 2 ^ 48 +
      stream (pos + 2) % 256 * 2 ^ 40 + stream (pos + 3) % 256 * 2 ^ 32 +
      stream (pos + 4) % 256 * 2 ^ 24 + stream (pos + 5) % 256 * 2 ^ 16 +
      stream (pos + 6) % 256 * 2 ^ 8 + stream (pos + 7) % 256 ∧
    int63 stream pos < 2 ^ 63 := by
  have h127 : (127 : Nat) = 2 ^ 7 - 1 := by norm_num
  have hmask : stream pos % 256 &&& 127 = stream pos % 256 % 128 := by
    rw [h127, Nat.and_pow_two_sub_one_eq_mod]
  have b0 : stream pos % 256 % 128 < 128 := Nat.mod_lt _ (by omega)
  have b1 : stream (pos + 1) % 256 < 256 := Nat.mod_lt _ (by omega)
  have b2 : stream (pos + 2) % 256 < 256 := Nat.mod_lt _ (by omega)
  have b3 : stream (pos + 3) % 256 < 256 := Nat.mod_lt _ (by omega)
  have b4 : stream (pos + 4) % 256 < 256 := Nat.mod_lt _ (by omega)
  have b5 : stream (pos + 5) % 256 < 256 := Nat.mod_lt _ (by omega)
  have b6 : stream (pos + 6) % 256 < 256 := Nat.mod_lt _ (by omega)
  have b7 : stream (pos + 7) % 256 < 256 := Nat.mod_lt _ (by omega)
  have p8 : (2 : Nat) ^ 8 = 256 := by norm_num
  have p16 : (2 : Nat) ^ 16 = 65536 := by norm_num
  have p24 : (2 : Nat) ^ 24 = 16777216 := by norm_num
  have p32 : (2 : Nat) ^ 32 = 4294967296 := by norm_num
  have p40 : (2 : Nat) ^ 40 = 1099511627776 := by norm_num
  have p48 : (2 : Nat) ^ 48 = 281474976710656 := by norm_num
  have p56 : (2 : Nat) ^ 56 = 72057594037927936 := by norm_num
  have p63 : (2 : Nat) ^ 63 = 9223372036854775808 := by norm_num
  have heq : int63 stream pos =
      stream pos % 256 % 128 * 2 ^ 56 + stream (pos + 1) % 256 * 2 ^ 48 +
      stream (pos + 2) % 256 * 2 ^ 40 + stream (pos + 3) % 256 * 2 ^ 32 +
      stream (pos + 4) % 256 * 2 ^ 24 + stream (pos + 5) % 256 * 2 ^ 16 +
      stream (pos + 6) % 256 * 2 ^ 8 + stream (pos + 7) % 256 := by
    unfold int63
    rw [hmask]
    simp only [Nat.shiftLeft_eq, Nat.lor_assoc]
    have e1 : stream (pos + 6) % 256 * 2 ^ 8 ||| stream (pos + 7) % 256
        = stream (pos + 6) % 256 * 2 ^ 8 + stream (pos + 7) % 256 :=
      lor_step 8 _ (by omega)
    rw [e1]
    have e2 : stream (pos + 5) % 256 * 2 ^ 16 |||
          (stream (pos + 6) % 256 * 2 ^ 8 + stream (pos + 7) % 256)
        = stream (pos + 5) % 256 * 2 ^ 16 +
          (stream (pos + 6) % 256 * 2 ^ 8 + stream (pos + 7) % 256) :=
      lor_step 16 _ (by omega)
    rw [e2]
    have e3 : stream (pos + 4) % 256 * 2 ^ 24 |||
          (stream (pos + 5) % 256 * 2 ^ 16 +
            (stream (pos + 6) % 256 * 2 ^ 8 + stream (pos + 7) % 256))
        = stream (pos + 4) % 256 * 2 ^ 24 +
          (stream (pos + 5) % 256 * 2 ^ 16 +
            (stream (pos + 6) % 256 * 2 ^ 8 + stream (pos + 7) % 256)) :=
      lor_step 24 _ (by omega)
    rw [e3]
    have e4 : stream (pos + 3) % 256 * 2 ^ 32 |||
          (stream (pos + 4) % 256 * 2 ^ 24 +
            (stream (pos + 5) % 256 * 2 ^ 16 +
              (stream (pos + 6) % 256 * 2 ^ 8 + stream (pos + 7) % 256)))
        = stream (pos + 3) % 256 * 2 ^ 32 +
          (stream (pos + 4) % 256 * 2 ^ 24 +
            (stream (pos + 5) % 256 * 2 ^ 16 +
              (stream (pos + 6) % 256 * 2 ^ 8 + stream (pos + 7) % 256))) :=
      lor_step 32 _ (by omega)
    rw [e4]
    have e5 : stream (pos + 2) % 256 * 2 ^ 40 |||
          (stream (pos + 3) % 256 * 2 ^ 32 +
            (stream (pos + 4) % 256 * 2 ^ 24 +
              (stream (pos + 5) % 256 * 2 ^ 16 +
                (stream (pos + 6) % 256 * 2 ^ 8 + stream (pos + 7) % 256))))
        = stream (pos + 2) % 256 * 2 ^ 40 +
          (stream (pos + 3) % 256 * 2 ^ 32 +
            (stream (pos + 4) % 256 * 2 ^ 24 +
              (stream (pos + 5) % 256 * 2 ^ 16 +
                (stream (pos + 6) % 256 * 2 ^ 8 + stream (pos + 7) % 256)))) :=
      lor_step 40 _ (by omega)
    rw [e5]
    have e6 : stream (pos + 1) % 256 * 2 ^ 48 |||
          (stream (pos + 2) % 256 * 2 ^ 40 +
            (stream (pos + 3) % 256 * 2 ^ 32 +
              (stream (pos + 4) % 256 * 2 ^ 24 +
                (stream (pos + 5) % 256 * 2 ^ 16 +
                  (stream (pos + 6) % 256 * 2 ^ 8 + stream (pos + 7) % 256)))))
        = stream (pos + 1) % 256 * 2 ^ 48 +
          (stream (pos + 2) % 256 * 2 ^ 40 +
            (stream (pos + 3) % 256 * 2 ^ 32 +
              (stream (pos + 4) % 256 * 2 ^ 24 +
                (stream (pos + 5) % 256 * 2 ^ 16 +
                  (stream (pos + 6) % 256 * 2 ^ 8 + stream (pos + 7) % 256))))) :=
      lor_step 48 _ (by omega)
    rw [e6]
    have e7 : stream pos % 256 % 128 * 2 ^ 56 |||
          (stream (pos + 1) % 256 * 2 ^ 48 +
            (stream (pos + 2) % 256 * 2 ^ 40 +
              (stream (pos + 3) % 256 * 2 ^ 32 +
                (stream (pos + 4) % 256 * 2 ^ 24 +
                  (stream (pos + 5) % 256 * 2 ^ 16 +
                    (stream (pos + 6) % 256 * 2 ^ 8 + stream (pos + 7) % 256))))))
        = stream pos % 256 % 128 * 2 ^ 56 +
          (stream (pos + 1) % 256 * 2 ^ 48 +
            (stream (pos + 2) % 256 * 2 ^ 40 +
              (stream (pos + 3) % 256 * 2 ^ 32 +
                (stream (pos + 4) % 256 * 2 ^ 24 +
                  (stream (pos + 5) % 256 * 2 ^ 16 +
                    (stream (pos + 6) % 256 * 2 ^ 8 + stream (pos + 7) % 256)))))) :=
      lor_step 56 _ (by omega)
    rw [e7]
    omega
  refine ⟨heq, ?_⟩
  rw [heq]
  omega

/-- Accepted bounded draws are below the bound and consume keystream bytes in
multiples of 8. -/
theorem int31nFuel_bound (stream : Nat → Nat) (n : Nat) (h1 : 0 < n) :
    ∀ (fuel pos v c : Nat), int31nFuel stream n fuel pos = some (v, c) →
      v < n ∧ c % 8 = 0 := by
  intro fuel
  induction fuel with
  | zero =>
    intro pos v c h
    simp [int31nFuel] at h
  | succ fuel ih =>
    intro pos v c h
    simp only [int31nFuel] at h
    by_cases hp : n &&& (n - 1) = 0
    · rw [if_pos hp] at h
      simp only [Option.some.injEq, Prod.mk.injEq] at h
      obtain ⟨hv, hc⟩ := h
      have hle : int31 stream pos &&& (n - 1) ≤ n - 1 := Nat.and_le_right
      omega
    · rw [if_neg hp] at h
      by_cases hacc : int31 stream pos ≤ 2 ^ 31 - 1 - 2 ^ 31 % n
      · rw [if_pos hacc] at h
        simp only [Option.some.injEq, Prod.mk.injEq] at h
        obtain ⟨hv, hc⟩ := h
        have := Nat.mod_lt (int31 stream pos) h1
        omega
      · rw [if_neg hacc] at h
        rcases hrec : int31nFuel stream n fuel (pos + 8) with _ | ⟨w, c'⟩
        · rw [hrec] at h
          simp at h
        · rw [hrec] at h
          simp only [Option.some.injEq, Prod.mk.injEq] at h
          obtain ⟨hv, hc⟩ := h
          have hih := ih (pos + 8) w c' hrec
          omega

/-- C4 fails on the code: the bounded draw is not "the 8 bytes big-endian
(masked) reduced modulo n in 8 bytes".  With keystream `0,...,0,1` the 63-bit
assembly is 1 and the claim predicts `1 % 2 = 1`, but the code draws
`(int63 >> 32) & 1 = 0`; with eight `0xff` bytes and `n = 3` the first 31-bit
value is rejected and the draw consumes 16 bytes, not 8. -/
theorem intn_not_63bit_mod :
    int31nFuel streamOne 2 1 0 = some (0, 8) ∧
    int63 streamOne 0 % 2 = 1 ∧ (0 : Nat) ≠ 1 ∧
    int31nFuel streamFF8 3 2 0 = some (0, 16) ∧
    int63 streamFF8 0 % 3 ≠ 0 ∧ (16 : Nat) ≠ 8 := by decide

/-- C4 amended: each raw 63-bit value is the next 8 keystream bytes assembled
big-endian with the top bit of the first byte masked off (the byte-weighted
sum below, always below `2^63`), consuming 8 bytes per raw draw; the bounded
draw for `0 < n < 2^31` is Go `math/rand.Int31n` applied to the top 31 bits
`int31 = int63 >> 32`: for a power of two `n` the draw is `int31 & (n-1)`
with exactly 8 bytes; for other `n`, 31-bit values are drawn (8 bytes each)
until one is at most `2^31 - 1 - (2^31 mod n)`, and the accepted value is
reduced `% n`; every draw is `< n` and consumes a multiple of 8 bytes. -/
theorem intn_draw_characterization (stream : Nat → Nat) (n pos fuel : Nat)
    (h1 : 0 < n) (h2 : n < 2 ^ 31) :
    (int63 stream pos =
      stream pos % 256 % 128 * 2 ^ 56 + stream (pos + 1) % 256 * 2 ^ 48 +
      stream (pos + 2) % 256 * 2 ^ 40 + stream (pos + 3) % 256 * 2 ^ 32 +
      stream (pos + 4) % 256 * 2 ^ 24 + stream (pos + 5) % 256 * 2 ^ 16 +
      stream (pos + 6) % 256 * 2 ^ 8 + stream (pos + 7) % 256 ∧
      int63 stream pos < 2 ^ 63) ∧
    int31 stream pos = int63 stream pos >>> 32 ∧
    (n &&& (n - 1) = 0 →
      int31nFuel stream n (fuel + 1) pos = some (int31 stream pos &&& (n - 1), 8)) ∧
    (n &&& (n - 1) ≠ 0 → int31 stream pos ≤ 2 ^ 31 - 1 - 2 ^ 31 % n →
      int31nFuel stream n (fuel + 1) pos = some (int31 stream pos % n, 8)) ∧
    (n &&& (n - 1) ≠ 0 → ¬int31 stream pos ≤ 2 ^ 31 - 1 - 2 ^ 31 % n →
      int31nFuel stream n (fuel + 1) pos =
        (int31nFuel stream n fuel (pos + 8)).map (fun vc => (vc.1, vc.2 + 8))) ∧
    (∀ v c, int31nFuel stream n (fuel + 1) pos = some (v, c) →
      v < n ∧ c % 8 = 0) := by
  refine ⟨int63_sum stream pos, rfl, ?_, ?_, ?_,
    fun v c h => int31nFuel_bound stream n h1 (fuel + 1) pos v c h⟩
  · intro hp
    simp only [int31nFuel, if_pos hp]
  · intro hp hacc
    simp only [int31nFuel, if_neg hp]
    rw [if_pos hacc]
  · intro hp hacc
    simp only [int31nFuel, if_neg hp]
    rw [if_neg hacc]
    rcases hrec : int31nFuel stream n fuel (pos + 8) with _ | ⟨w, c'⟩ <;> simp

theorem intn_draw_characterization_witness :
    int31nFuel streamOne 3 1 0 = some (int31 streamOne 0 % 3, 8) := by
  have h := intn_draw_characterization streamOne 3 0 0 (by decide) (by decide)
  exact h.2.2.2.1 (by decide) (by decide)

theorem compress_invalid_quantization_witness :
    (∃ e, compress encDiffs322 3 = Except.error e) ∧
    (∃ c, compress encDiffs322 4 = Except.ok c) := by
  constructor
  · apply (compress_invalid_quantization encDiffs322 3 (by decide)).1.mpr
    refine Or.inr (fun k => ?_)
    rcases k with _ | _ | k
    · decide
    · decide
    · have h1 : 1 ≤ (2 : Nat) ^ k := Nat.one_le_two_pow
      have h2 : (2 : Nat) ^ (k + 1 + 1) = 2 ^ k * 4 := by
        rw [pow_add, pow_add]
        ring
      omega
  · exact (compress_invalid_quantization encDiffs322 4 (by decide)).2.mpr
      (by decide)

/-! ### C1: the quantization-1 round trip -/

theorem getD_range_map {α : Type} (k : Nat) (φ : Nat → α) (d : α) (i : Nat)
    (h : i < k) : ((List.range k).map φ).getD i d = φ i := by
  rw [getD_of_lt _ i d (by simpa using h), List.getElem_map, List.getElem_range]

/-- At quantization 1 the quantization table is the identity table. -/
theorem makeQtable_one (D : List Nat) : makeQtable D 1 = List.range 256 := by
  unfold makeQtable
  have h : trailingZeros8 1 = 0 := rfl
  rw [h]
  simp

/-- Every pixel read is a byte when the pixel buffer holds bytes (out-of-range
reads return the zero default). -/
theorem At_lt (img : Image) (hpix : ∀ p ∈ img.image, p < 256) (x y : Nat) :
    img.At x y < 256 := by
  unfold Image.At
  by_cases h : y * img.width + x < img.image.length
  · rw [getD_of_lt _ _ _ h]
    exact hpix _ (List.getElem_mem h)
  · rw [List.getD_eq_getElem?_getD, List.getElem?_eq_none (by omega)]
    simp

/-- Interpolation writes only the top-right and bottom-left components: the
carried components 0 and 3 of every block are unchanged. -/
theorem interpolate_preserves (B : List B4) (bw bh : Nat) (t : Int) (i : Nat)
    (h : i < bw * bh) :
    ((interpolateBlocks B bw bh t).getD i ⟨0, 0, 0, 0⟩).b0
        = (B.getD i ⟨0, 0, 0, 0⟩).b0 ∧
    ((interpolateBlocks B bw bh t).getD i ⟨0, 0, 0, 0⟩).b3
        = (B.getD i ⟨0, 0, 0, 0⟩).b3 := by
  unfold interpolateBlocks
  rw [getD_range_map _ _ _ i h]
  exact ⟨rfl, rfl⟩

/-- Reading the emitted image at the top-left pixel of block `(bx, brow)`
returns component 0 of that block. -/
theorem emitImage_At_tl (blocks : List B4) (bw bh bx brow : Nat)
    (hbx : bx < bw) (hbrow : brow < bh) :
    (emitImage blocks (2 * bw) bw bh).getD (2 * brow * (2 * bw) + 2 * bx) 0
      = (blocks.getD (brow * bw + bx) ⟨0, 0, 0, 0⟩).b0 := by
  have hwpos : 0 < 2 * bw := by omega
  have hidx : 2 * brow * (2 * bw) + 2 * bx < 4 * (bw * bh) := by
    have h1 : (2 * brow + 1) * (2 * bw) = 2 * brow * (2 * bw) + 2 * bw := by ring
    have h2 : (2 * brow + 1) * (2 * bw) ≤ (2 * bh) * (2 * bw) :=
      Nat.mul_le_mul_right _ (by omega)
    have h3 : (2 * bh) * (2 * bw) = 4 * (bw * bh) := by ring
    omega
  unfold emitImage
  rw [getD_range_map _ _ _ _ hidx]
  have hcomm : 2 * brow * (2 * bw) + 2 * bx = 2 * bx + 2 * brow * (2 * bw) := by
    ring
  have hx : (2 * brow * (2 * bw) + 2 * bx) % (2 * bw) = 2 * bx := by
    rw [hcomm, Nat.add_mul_mod_self_right]
    exact Nat.mod_eq_of_lt (by omega)
  have hy : (2 * brow * (2 * bw) + 2 * bx) / (2 * bw) = 2 * brow := by
    rw [hcomm, Nat.add_mul_div_right _ _ hwpos, Nat.div_eq_of_lt (by omega)]
    omega
  dsimp only
  rw [hx, hy, if_pos (by omega : 2 * brow % 2 = 0),
    if_pos (by omega : 2 * bx % 2 = 0),
    (by omega : 2 * brow / 2 = brow), (by omega : 2 * bx / 2 = bx)]

/-- Reading the emitted image at the bottom-right pixel of block `(bx, brow)`
returns component 3 of that block. -/
theorem emitImage_At_br (blocks : List B4) (bw bh bx brow : Nat)
    (hbx : bx < bw) (hbrow : brow < bh) :
    (emitImage blocks (2 * bw) bw bh).getD
        ((2 * brow + 1) * (2 * bw) + (2 * bx + 1)) 0
      = (blocks.getD (brow * bw + bx) ⟨0, 0, 0, 0⟩).b3 := by
  have hwpos : 0 < 2 * bw := by omega
  have hidx : (2 * brow + 1) * (2 * bw) + (2 * bx + 1) < 4 * (bw * bh) := by
    have h1 : (2 * brow + 2) * (2 * bw) = (2 * brow + 1) * (2 * bw) + 2 * bw := by
      ring
    have h2 : (2 * brow + 2) * (2 * bw) ≤ (2 * bh) * (2 * bw) :=
      Nat.mul_le_mul_right _ (by omega)
    have h3 : (2 * bh) * (2 * bw) = 4 * (bw * bh) := by ring
    omega
  unfold emitImage
  rw [getD_range_map _ _ _ _ hidx]
  have hcomm : (2 * brow + 1) * (2 * bw) + (2 * bx + 1)
      = (2 * bx + 1) + (2 * brow + 1) * (2 * bw) := by ring
  have hx : ((2 * brow + 1) * (2 * bw) + (2 * bx + 1)) % (2 * bw) = 2 * bx + 1 := by
    rw [hcomm, Nat.add_mul_mod_self_right]
    exact Nat.mod_eq_of_lt (by omega)
  have hy : ((2 * brow + 1) * (2 * bw) + (2 * bx + 1)) / (2 * bw) = 2 * brow + 1 := by
    rw [hcomm, Nat.add_mul_div_right _ _ hwpos, Nat.div_eq_of_lt (by omega)]
    omega
  dsimp only
  rw [hx, hy, if_neg (by omega : ¬(2 * brow + 1) % 2 = 0),
    if_neg (by omega : ¬(2 * bx + 1) % 2 = 0),
    (by omega : (2 * brow + 1) / 2 = brow), (by omega : (2 * bx + 1) / 2 = bx)]

/-- Core of C1, at the codec-free level: at quantization 1 the pipeline
`decrypt (compress (Encrypt img) 1)` returns an image with the same width and
height that agrees with the input byte-exactly at the top-left and
bottom-right pixel of every 2x2 block. -/
theorem decrypt_compress_q1 (img : Image) (mask : Nat → Nat) (f : Nat → Nat → Nat)
    (salt : List Nat) (c : compressedImage)
    (hW : img.width % 2 = 0) (hH : img.height % 2 = 0)
    (hlen : img.image.length = img.width * img.height)
    (hpix : ∀ p ∈ img.image, p < 256)
    (hf : ∀ i n, 0 < n → f i n < n)
    (hc : compress (Encrypt img mask f salt) 1 = Except.ok c) :
    (decrypt c mask f).width = img.width ∧
    (decrypt c mask f).height = img.height ∧
    ∀ bx brow, bx < img.width / 2 → brow < img.height / 2 →
      (decrypt c mask f).At (2 * bx) (2 * brow) = img.At (2 * bx) (2 * brow) ∧
      (decrypt c mask f).At (2 * bx + 1) (2 * brow + 1)
        = img.At (2 * bx + 1) (2 * brow + 1) := by
  have honescount : onesCount8 1 = 1 := by decide
  simp only [compress] at hc
  rw [if_neg (not_not_intro honescount)] at hc
  injection hc with hc
  have hq : c.quarterimage
      = (permuteHalfimage f (encryptHalfimage img mask)).map (fun p => p.1) := by
    rw [← hc]
    rfl
  have hqt : c.qtable = List.range 256 := by
    rw [← hc]
    exact makeQtable_one _
  have hqd : c.qdiffs
      = (permuteHalfimage f (encryptHalfimage img mask)).map
          (fun p => bsub p.2 p.1) := by
    rw [← hc]
    show ((permuteHalfimage f (encryptHalfimage img mask)).map
        (fun p => bsub p.2 p.1)).map (fun v => v >>> trailingZeros8 1) = _
    have h0 : trailingZeros8 1 = 0 := rfl
    simp [h0]
  have hwidth : c.width = img.width := by
    rw [← hc]
    rfl
  have hheight : c.height = img.height := by
    rw [← hc]
    rfl
  have hhp_len : (encryptHalfimage img mask).length
      = img.width / 2 * (img.height / 2) := by
    simp [encryptHalfimage]
  have hP_len : (permuteHalfimage f (encryptHalfimage img mask)).length
      = img.width / 2 * (img.height / 2) := by
    rw [permuteHalfimage, fyN_length f _ 0 _ rfl, hhp_len]
  have hPmem : ∀ pr ∈ permuteHalfimage f (encryptHalfimage img mask),
      pr.1 < 256 ∧ pr.2 < 256 := by
    intro pr hpr
    have hperm : (permuteHalfimage f (encryptHalfimage img mask)).Perm
        (encryptHalfimage img mask) := fyN_perm f _ 0 _ rfl
    have hmem2 : pr ∈ encryptHalfimage img mask := hperm.mem_iff.mp hpr
    simp only [encryptHalfimage, List.mem_map, List.mem_range] at hmem2
    obtain ⟨i, _, hi⟩ := hmem2
    rw [← hi]
    exact ⟨badd_lt _ _, badd_lt _ _⟩
  have hcn : c.quarterimage.length = img.width / 2 * (img.height / 2) := by
    rw [hq, List.length_map, hP_len]
  -- the pre-mask blocks are the permuted masked pairs, embedded into B4
  have hB0 : (List.range c.quarterimage.length).map (fun i =>
        B4.mk (c.quarterimage.getD i 0) 0 0
          (badd (c.quarterimage.getD i 0)
            (c.qtable.getD (c.qdiffs.getD i 0) 0)))
      = (permuteHalfimage f (encryptHalfimage img mask)).map
          (fun pr => B4.mk pr.1 0 0 pr.2) := by
    apply List.ext_getElem
    · simp [hcn, hP_len]
    · intro i h1 h2
      have hiP : i < (permuteHalfimage f (encryptHalfimage img mask)).length := by
        simpa using h2
      have hin : i < c.quarterimage.length := by simpa using h1
      rw [List.getElem_map, List.getElem_range, List.getElem_map]
      have hq_i : c.quarterimage.getD i 0
          = ((permuteHalfimage f (encryptHalfimage img mask))[i]).1 := by
        rw [hq, getD_of_lt _ i 0 (by simpa using hiP), List.getElem_map]
      have hqd_i : c.qdiffs.getD i 0
          = bsub ((permuteHalfimage f (encryptHalfimage img mask))[i]).2
              ((permuteHalfimage f (encryptHalfimage img mask))[i]).1 := by
        rw [hqd, getD_of_lt _ i 0 (by simpa using hiP), List.getElem_map]
      have hqt_v : c.qtable.getD (c.qdiffs.getD i 0) 0 = c.qdiffs.getD i 0 := by
        rw [hqt, hqd_i, getD_of_lt _ _ 0 (by simpa using bsub_lt _ _),
          List.getElem_range]
      rw [hq_i, hqt_v, hqd_i, badd_bsub]
      have hmem := hPmem _ (List.getElem_mem hiP)
      rw [Nat.mod_eq_of_lt hmem.2]
  have hmapP : (permuteHalfimage f (encryptHalfimage img mask)).map
        (fun pr => B4.mk pr.1 0 0 pr.2)
      = permuteHalfimage f
          ((encryptHalfimage img mask).map (fun pr => B4.mk pr.1 0 0 pr.2)) := by
    unfold permuteHalfimage
    rw [List.length_map]
    exact (fyN_map (fun pr : Nat × Nat => B4.mk pr.1 0 0 pr.2) f _ 0 _ rfl).symm
  have hB1 : unpermuteBlocks f
        ((permuteHalfimage f (encryptHalfimage img mask)).map
          (fun pr => B4.mk pr.1 0 0 pr.2)) (B4.mk 0 0 0 0)
      = (encryptHalfimage img mask).map (fun pr => B4.mk pr.1 0 0 pr.2) := by
    rw [hmapP, unpermute_permute]
  have hhp : (encryptHalfimage img mask).map (fun pr => B4.mk pr.1 0 0 pr.2)
      = (List.range (img.width / 2 * (img.height / 2))).map (fun i =>
          B4.mk (badd (img.At (2 * (i % (img.width / 2)))
              (2 * (i / (img.width / 2)))) (mask i)) 0 0
            (badd (img.At (2 * (i % (img.width / 2)) + 1)
              (2 * (i / (img.width / 2)) + 1)) (mask i))) := by
    unfold encryptHalfimage
    dsimp only
    rw [List.map_map]
    rfl
  have hAt : ∀ x y, img.At x y < 256 := At_lt img hpix
  have hDB : decryptBlocks c mask f
      = (List.range (img.width / 2 * (img.height / 2))).map (fun i =>
          B4.mk (img.At (2 * (i % (img.width / 2))) (2 * (i / (img.width / 2))))
            0 0
            (img.At (2 * (i % (img.width / 2)) + 1)
              (2 * (i / (img.width / 2)) + 1))) := by
    unfold decryptBlocks
    dsimp only
    rw [hB0, hB1, hhp, hcn]
    apply List.ext_getElem
    · simp
    · intro i h1 h2
      have hi : i < img.width / 2 * (img.height / 2) := by simpa using h1
      rw [List.getElem_map, List.getElem_range, List.getElem_map,
        List.getElem_range]
      rw [getD_range_map _ _ _ i hi]
      dsimp only
      rw [bsub_badd, bsub_badd, Nat.mod_eq_of_lt (hAt _ _),
        Nat.mod_eq_of_lt (hAt _ _)]
  refine ⟨hwidth, hheight, ?_⟩
  intro bx brow hbx hbrow
  obtain ⟨w2, hw2, hww⟩ : ∃ w2, img.width / 2 = w2 ∧ img.width = 2 * w2 :=
    ⟨img.width / 2, rfl, by omega⟩
  rw [hw2] at hbx hDB
  have hshow_tl : (decrypt c mask f).At (2 * bx) (2 * brow)
      = (emitImage (interpolateBlocks (decryptBlocks c mask f)
            (c.width / 2) (c.height / 2) 20)
          c.width (c.width / 2) (c.height / 2)).getD
          (2 * brow * c.width + 2 * bx) 0 := rfl
  have hshow_br : (decrypt c mask f).At (2 * bx + 1) (2 * brow + 1)
      = (emitImage (interpolateBlocks (decryptBlocks c mask f)
            (c.width / 2) (c.height / 2) 20)
          c.width (c.width / 2) (c.height / 2)).getD
          ((2 * brow + 1) * c.width + (2 * bx + 1)) 0 := rfl
  have hblock : brow * w2 + bx < w2 * (img.height / 2) := by
    have h1 : (brow + 1) * w2 = brow * w2 + w2 := by ring
    have h2 : (brow + 1) * w2 ≤ img.height / 2 * w2 :=
      Nat.mul_le_mul_right _ (by omega)
    have h3 : img.height / 2 * w2 = w2 * (img.height / 2) := Nat.mul_comm _ _
    omega
  have hmod : (brow * w2 + bx) % w2 = bx := by
    have h : brow * w2 + bx = bx + brow * w2 := by ring
    rw [h, Nat.add_mul_mod_self_right, Nat.mod_eq_of_lt hbx]
  have hdiv : (brow * w2 + bx) / w2 = brow := by
    have h : brow * w2 + bx = bx + brow * w2 := by ring
    rw [h, Nat.add_mul_div_right _ _ (by omega : 0 < w2),
      Nat.div_eq_of_lt hbx]
    omega
  constructor
  · rw [hshow_tl, hwidth, hheight, hw2, hww]
    rw [emitImage_At_tl _ _ _ _ _ hbx hbrow]
    rw [(interpolate_preserves _ _ _ _ _ hblock).1]
    rw [hDB, getD_range_map _ _ _ _ hblock]
    dsimp only
    rw [hmod, hdiv]
  · rw [hshow_br, hwidth, hheight, hw2, hww]
    rw [emitImage_At_br _ _ _ _ _ hbx hbrow]
    rw [(interpolate_preserves _ _ _ _ _ hblock).2]
    rw [hDB, getD_range_map _ _ _ _ hblock]
    dsimp only
    rw [hmod, hdiv]

/-- C1: for every image with even width and height (byte pixels of the
declared size) and every keystream (mask bytes and in-range bounded draws,
shared by encryption and decryption as both are derived from the same key and
salt), at quantization 1 the full pipeline
`Decrypt (Compress (Encrypt img) 1)` — with the black-box entropy codec
assumed to round-trip — returns an image with the same width and height that
agrees with the input byte-exactly at the top-left `(2bx, 2by)` and
bottom-right `(2bx+1, 2by+1)` pixel of every 2x2 block: these are the pixels
carried through masking, permutation and differencing, while the other two
are CAI interpolations. -/
theorem roundtrip_q1 (img : Image) (mask : Nat → Nat) (f : Nat → Nat → Nat)
    (salt : List Nat) (encode decode : List Nat → List Nat)
    (C : CompressedImage)
    (hW : img.width % 2 = 0) (hH : img.height % 2 = 0)
    (hlen : img.image.length = img.width * img.height)
    (hpix : ∀ p ∈ img.image, p < 256)
    (hf : ∀ i n, 0 < n → f i n < n)
    (hcodec : ∀ l, decode (encode l) = l)
    (hC : Compress (Encrypt img mask f salt) 1 encode = Except.ok C) :
    (Decrypt C decode mask f).width = img.width ∧
    (Decrypt C decode mask f).height = img.height ∧
    ∀ bx brow, bx < img.width / 2 → brow < img.height / 2 →
      (Decrypt C decode mask f).At (2 * bx) (2 * brow)
          = img.At (2 * bx) (2 * brow) ∧
      (Decrypt C decode mask f).At (2 * bx + 1) (2 * brow + 1)
          = img.At (2 * bx + 1) (2 * brow + 1) := by
  rcases hcomp : compress (Encrypt img mask f salt) 1 with e | comp
  · simp only [Compress, hcomp] at hC
    exact absurd hC (by simp)
  · simp only [Compress, hcomp] at hC
    injection hC with hC
    have hcomp2 := hcomp
    simp only [compress] at hcomp2
    rw [if_neg (not_not_intro (by decide : onesCount8 1 = 1))] at hcomp2
    injection hcomp2 with hcomp2
    subst hcomp2
    subst hC
    unfold Decrypt
    rw [hcodec]
    exact decrypt_compress_q1 img mask f salt _ hW hH hlen hpix hf hcomp

theorem roundtrip_q1_witness :
    (Decrypt ⟨[17], List.range 256, [30], [], 2, 2, false, false⟩
        (fun l => l) (fun _ => 7) (fun _ _ => 0)).At 0 0 = img2x2.At 0 0 ∧
    (Decrypt ⟨[17], List.range 256, [30], [], 2, 2, false, false⟩
        (fun l => l) (fun _ => 7) (fun _ _ => 0)).At 1 1 = img2x2.At 1 1 := by
  have h := roundtrip_q1 img2x2 (fun _ => 7) (fun _ _ => 0) []
    (fun l => l) (fun l => l)
    ⟨[17], List.range 256, [30], [], 2, 2, false, false⟩
    (by decide) (by decide) (by decide) (by decide)
    (fun _ _ hh => hh) (fun l => rfl) rfl
  have h2 := h.2.2 0 0 (by decide) (by decide)
  simpa using h2

end Gshe
